import Mathlib

/-
Verification development for the Cairo-specific STARK layer of the
starknet_stack_prover_lambdaworks repository.

The repository snapshot under study contains the Merkle-commitment
configuration (`src/starks/config.rs`) and the integration test suite
(`cairo_prover/src/tests/integration_tests.rs`).  The Cairo prover and
verifier themselves (`generate_cairo_proof`, `verify_cairo_proof`,
`build_main_trace`, `PublicInputs::from_regs_and_mem`, and the Cairo AIR)
are exercised by those tests but their bodies are not part of the
snapshot, so they are modelled here from the specification, at the level
of the idealised external STARK engine the specification assumes: the
commitment scheme perfectly binds the committed trace and the proof
options, and verification checks every transition and boundary constraint
of the AIR derived from the supplied public inputs.
-/

set_option maxHeartbeats 1000000

namespace Cairo

/-- Modelled from the spec: the VM's field of "field elements".  The field
itself is external to the snapshot; field elements are represented by their
canonical natural-number representative, reduced modulo `prime`. -/
def prime : Nat := 2 ^ 251 + 17 * 2 ^ 192 + 1

/-- Modelled from the spec: a sparse mapping from address to field element
representing the VM's flat memory (spec section 3); the struct body is not in
the snapshot (the tests access a `data` field). -/
structure Memory where
  data : List (Nat × Nat)
deriving DecidableEq

/-- First value recorded for an address, if any. -/
def Memory.lookup (m : Memory) (a : Nat) : Option Nat :=
  (m.data.find? (fun p => decide (p.1 = a))).map (fun p => p.2)

/-- Value at an address, defaulting to `0` for an absent address. -/
def Memory.getD (m : Memory) (a : Nat) : Nat :=
  (m.lookup a).getD 0

/-- Modelled from the spec: one per-step VM state (program counter and the
two stack/frame pointers); the struct body is not in the snapshot. -/
structure RegisterState where
  pc : Nat
  ap : Nat
  fp : Nat
deriving DecidableEq

/-- Modelled from the spec: the tag identifying a built-in memory segment;
the enum body is not in the snapshot (the tests use `RangeCheck` and
`Output`). -/
inductive MemorySegment where
  | RangeCheck
  | Output
  | Program
  | Execution
deriving DecidableEq

/-- A half-open address range `[start, stop)`. -/
structure SegmentRange where
  start : Nat
  stop : Nat
deriving DecidableEq

/-- Modelled from the spec: the mapping from segment tag to address range. -/
abbrev MemorySegmentMap : Type := List (MemorySegment × SegmentRange)

/-- Range registered for a segment, if any. -/
def MemorySegmentMap.lookup (m : MemorySegmentMap) (s : MemorySegment) :
    Option SegmentRange :=
  (List.find? (fun p => decide (p.1 = s)) m).map (fun p => p.2)

/-- Modelled from the spec: the public claim being proven (spec section 3);
the struct body is not in the snapshot (the tests access `public_memory`,
`range_check_min` and `range_check_max`). -/
structure PublicInputs where
  public_memory : List (Nat × Nat)
  program_size : Nat
  trace_length : Nat
  memory_segments : MemorySegmentMap
  range_check_min : Option Nat
  range_check_max : Option Nat
  output_values : List Nat
deriving DecidableEq

/-- First value claimed for an address by a public-memory listing. -/
def pmLookup (pm : List (Nat × Nat)) (a : Nat) : Option Nat :=
  (pm.find? (fun p => decide (p.1 = a))).map (fun p => p.2)

/-- Number of limbs of a range-check decomposition. -/
def RC_LIMB_COUNT : Nat := 8

/-- Each limb is a 16-bit word, so the weight of one limb position. -/
def limbWeight : Nat := 2 ^ 16

/-- The bound `2 ^ 128` that `RC_LIMB_COUNT` limbs of width 16 bits cover. -/
def rcBound : Nat := 2 ^ 128

/-- Modelled from the spec: one row of the execution trace — the CPU frame
(program counter, fetched instruction word, destination/operand addresses and
resolved values) together with the range-check builtin's auxiliary encoding
(the limb decomposition and the range-checked value itself, the trace's last
column).  The instruction decode/execute constraints of spec section 4.4(i)
are outside the claims under study and are not modelled. -/
structure Row where
  pc : Nat
  inst : Nat
  dst_addr : Nat
  dst : Nat
  op0_addr : Nat
  op0 : Nat
  op1_addr : Nat
  op1 : Nat
  rc_limbs : List Nat
  rc_value : Nat
deriving DecidableEq

instance : Inhabited Row :=
  ⟨{ pc := 0, inst := 0, dst_addr := 0, dst := 0, op0_addr := 0, op0 := 0,
     op1_addr := 0, op1 := 0, rc_limbs := [], rc_value := 0 }⟩

/-- Modelled from the spec: the column-oriented execution trace, stored as
its ordered sequence of rows (spec section 3 treats the two views as
equivalent). -/
structure TraceTable where
  rows : List Row
deriving DecidableEq

/-- The (address, value) memory accesses contributed by one row. -/
def rowAccesses (r : Row) : List (Nat × Nat) :=
  [(r.pc, r.inst), (r.dst_addr, r.dst), (r.op0_addr, r.op0), (r.op1_addr, r.op1)]

/-- All (address, value) memory accesses of a list of rows. -/
def accessesOf (rows : List Row) : List (Nat × Nat) :=
  (rows.map rowAccesses).flatten

/-- All (address, value) memory accesses of a trace. -/
def TraceTable.accesses (t : TraceTable) : List (Nat × Nat) :=
  accessesOf t.rows

/-- A row is well formed when every cell holds a reduced field element. -/
def Row.wellFormedB (r : Row) : Bool :=
  decide (r.pc < prime) && decide (r.inst < prime) && decide (r.dst_addr < prime) &&
  decide (r.dst < prime) && decide (r.op0_addr < prime) && decide (r.op0 < prime) &&
  decide (r.op1_addr < prime) && decide (r.op1 < prime) &&
  r.rc_limbs.all (fun l => decide (l < prime)) && decide (r.rc_value < prime)

/-- Modelled from the spec: the external engine's parameter validation — the
trace must be non-empty, match the claimed trace length, and consist of
reduced field elements. -/
def traceWellFormed (pub : PublicInputs) (t : TraceTable) : Bool :=
  decide (t.rows.length = pub.trace_length) && decide (t.rows ≠ []) &&
  t.rows.all Row.wellFormedB

/-- Modelled from the spec: memory consistency (spec section 4.4(ii)) — every
distinct address referenced across all rows must show the same value wherever
read. -/
def memoryCheck (t : TraceTable) : Bool :=
  t.accesses.all (fun p => t.accesses.all (fun q => decide (p.1 = q.1 → p.2 = q.2)))

/-- Modelled from the spec: the boundary constraints binding the public
memory (the program listing over `[0, program_size)`) to the committed trace
(spec sections 4.2 and 4.4): every claimed program cell must be vouched for by
a trace access, and every trace access inside the program address range must
agree with the claimed program listing. -/
def pmCheck (pub : PublicInputs) (t : TraceTable) : Bool :=
  pub.public_memory.all (fun p => decide (p ∈ t.accesses)) &&
  t.accesses.all (fun p =>
    decide (pub.program_size ≤ p.1) || decide (pmLookup pub.public_memory p.1 = some p.2))

/-- Weighted (base `limbWeight`, little-endian) sum of a limb list. -/
def weightedLimbSum (limbs : List Nat) : Nat :=
  limbs.foldr (fun l acc => l + limbWeight * acc) 0

/-- Modelled from the spec: the per-row range-check constraints (spec section
4.4(iii)) — the row carries exactly `RC_LIMB_COUNT` limbs, each limb lies
within its fixed 16-bit width, and the weighted sum of the limbs equals (in
the field) the range-checked value recorded in the row. -/
def rowRcCheck (r : Row) : Bool :=
  decide (r.rc_limbs.length = RC_LIMB_COUNT) &&
  r.rc_limbs.all (fun l => decide (l < limbWeight)) &&
  decide (weightedLimbSum r.rc_limbs % prime = r.rc_value)

/-- All limb cells of a trace, in row order. -/
def traceLimbs (t : TraceTable) : List Nat :=
  (t.rows.map Row.rc_limbs).flatten

/-- Modelled from the spec: the range-check bounds actually present in the
range-check limb columns of a trace — `none` when the range-check builtin is
absent, otherwise the minimum and maximum limb values. -/
def rcBoundsOf (rcSeg : Option SegmentRange) (t : TraceTable) :
    Option Nat × Option Nat :=
  match rcSeg, traceLimbs t with
  | some _, l :: ls => (some (ls.foldl Nat.min l), some (ls.foldl Nat.max l))
  | _, _ => (none, none)

/-- Modelled from the spec: the boundary constraint on the claimed
range-check bounds (spec section 4.4) — the claimed `range_check_min` and
`range_check_max` must equal, by exact equality and not by a range condition,
the boundary values actually present in the range-check columns. -/
def rcBoundsCheck (pub : PublicInputs) (t : TraceTable) : Bool :=
  decide ((pub.range_check_min, pub.range_check_max) =
    rcBoundsOf (pub.memory_segments.lookup MemorySegment.RangeCheck) t)

/-- Modelled from the spec: the boundary constraints pinning the output
cells to the claimed output values (spec section 4.4): each claimed output
must be vouched for by a trace access at its output-segment address, and every
trace access inside the output segment must agree with the claimed outputs. -/
def outputCheck (pub : PublicInputs) (t : TraceTable) : Bool :=
  match pub.memory_segments.lookup MemorySegment.Output with
  | none => pub.output_values.isEmpty
  | some sr =>
      decide (pub.output_values.length = sr.stop - sr.start) &&
      (List.range pub.output_values.length).all (fun j =>
        decide ((sr.start + j, pub.output_values.getD j 0) ∈ t.accesses)) &&
      t.accesses.all (fun p =>
        decide (p.1 < sr.start) || decide (sr.stop ≤ p.1) ||
        decide (pub.output_values.getD (p.1 - sr.start) 0 = p.2))

/-- Modelled from the spec: the full constraint system (AIR) re-derived by
the verifier from the public inputs — trace well-formedness, memory
consistency, the public-memory boundary constraints, the per-row range-check
constraints, the range-check bound boundary constraints and the output
boundary constraints. -/
def airCheck (pub : PublicInputs) (t : TraceTable) : Bool :=
  traceWellFormed pub t && memoryCheck t && pmCheck pub t &&
  t.rows.all rowRcCheck && rcBoundsCheck pub t && outputCheck pub t

/-- Modelled from the spec: the security-level enumeration selecting the
engine's commitment parameters; the enum body is not in the snapshot (the
tests use the two `Conjecturable` levels). -/
inductive SecurityLevel where
  | Conjecturable80Bits
  | Conjecturable100Bits
  | Conjecturable128Bits
  | Provable80Bits
  | Provable128Bits
deriving DecidableEq

/-- Modelled from the spec: the proof options — a security level plus the
number of independent query rounds (spec section 6). -/
structure ProofOptions where
  security_level : SecurityLevel
  query_rounds : Nat
deriving DecidableEq

/-- The proof options used by the test suite. -/
def ProofOptions.new_secure (lvl : SecurityLevel) (rounds : Nat) : ProofOptions :=
  { security_level := lvl, query_rounds := rounds }

/-- Modelled from the spec: the default options of the test suite. -/
def ProofOptions.default_test_options : ProofOptions :=
  ProofOptions.new_secure SecurityLevel.Conjecturable80Bits 3

/-- Modelled from the spec: the opaque proof artifact, at the idealised level
assumed of the external engine — the commitments perfectly bind the committed
trace and the options the artifact was produced under. -/
structure StarkProof where
  trace : TraceTable
  options : ProofOptions
deriving DecidableEq

/-- Modelled from the spec: the prover-side error kind for failed parameter
validation. -/
inductive ProverError where
  | WrongParameter
deriving DecidableEq

instance : DecidableEq (Except ProverError StarkProof) := fun x y =>
  match x, y with
  | Except.ok a, Except.ok b =>
      if h : a = b then isTrue (by rw [h])
      else isFalse (fun hc => h (by injection hc))
  | Except.error a, Except.error b =>
      if h : a = b then isTrue (by rw [h])
      else isFalse (fun hc => h (by injection hc))
  | Except.ok _, Except.error _ => isFalse (fun hc => Except.noConfusion hc)
  | Except.error _, Except.ok _ => isFalse (fun hc => Except.noConfusion hc)

/-- Modelled from the spec: `generate_cairo_proof` — assembles the AIR for
the given public inputs and hands the trace to the external engine, which
commits to whatever trace it is given once its parameter validation passes.
The test suite shows that proof generation succeeds even on traces that
violate their AIR (the resulting artifact is then rejected by the verifier),
so no constraint checking happens here. -/
def generate_cairo_proof (t : TraceTable) (pub : PublicInputs)
    (opts : ProofOptions) : Except ProverError StarkProof :=
  if traceWellFormed pub t then Except.ok { trace := t, options := opts }
  else Except.error ProverError.WrongParameter

/-- Modelled from the spec: `verify_cairo_proof` — re-derives the AIR from
the supplied public inputs and options and checks, through the idealised
external engine, that the proof was produced under structurally identical
options and that the committed trace satisfies every constraint of that AIR.
Always returns a boolean. -/
def verify_cairo_proof (p : StarkProof) (pub : PublicInputs)
    (opts : ProofOptions) : Bool :=
  decide (p.options = opts) && airCheck pub p.trace

/-- Little-endian base-`limbWeight` decomposition into `k` limbs. -/
def limbDecomposeAux : Nat → Nat → List Nat
  | 0, _ => []
  | k + 1, v => v % limbWeight :: limbDecomposeAux k (v / limbWeight)

/-- Modelled from the spec: the fixed-width limb decomposition the trace
builder records for a range-checked value (spec section 4.3) — the value
split into `RC_LIMB_COUNT` fixed-width limbs; a value of at least `rcBound`
cannot be represented, and only its low bits survive. -/
def limbDecompose (v : Nat) : List Nat :=
  limbDecomposeAux RC_LIMB_COUNT v

/-- Modelled from the spec: the range-checked value laid out in trace row
`i` — the `i`-th cell of the range-check segment while the segment lasts,
after which the trace is padded by duplicating the last segment value (spec
section 4.3); `0` when the builtin is absent. -/
def rcValueAt (mem : Memory) (rcSeg : Option SegmentRange) (i : Nat) : Nat :=
  match rcSeg with
  | none => 0
  | some sr =>
      if sr.start + i < sr.stop then mem.getD (sr.start + i)
      else if sr.start < sr.stop then mem.getD (sr.stop - 1)
      else 0

/-- Modelled from the spec: the trace row emitted for one execution step —
the CPU frame recorded from the register state and memory, together with the
range-check builtin's limb decomposition for this row. -/
def buildRow (mem : Memory) (rcSeg : Option SegmentRange) (i : Nat)
    (st : RegisterState) : Row :=
  { pc := st.pc, inst := mem.getD st.pc,
    dst_addr := st.ap, dst := mem.getD st.ap,
    op0_addr := st.fp, op0 := mem.getD st.fp,
    op1_addr := st.pc, op1 := mem.getD st.pc,
    rc_limbs := limbDecompose (rcValueAt mem rcSeg i),
    rc_value := rcValueAt mem rcSeg i }

/-- Rows built for the register states starting at row index `i`. -/
def buildRowsFrom (mem : Memory) (rcSeg : Option SegmentRange) :
    Nat → List RegisterState → List Row
  | _, [] => []
  | i, st :: sts => buildRow mem rcSeg i st :: buildRowsFrom mem rcSeg (i + 1) sts

/-- Modelled from the spec: `build_main_trace` — expands the register states
and memory into the execution trace and writes the refined range-check
bounds, observed during layout from the limb columns, back into the public
inputs (spec section 4.3; the in-place mutation of the Rust code is modelled
by returning the updated value). -/
def build_main_trace (regs : List RegisterState) (mem : Memory)
    (pub : PublicInputs) : TraceTable × PublicInputs :=
  let rcSeg := pub.memory_segments.lookup MemorySegment.RangeCheck
  let t : TraceTable := { rows := buildRowsFrom mem rcSeg 0 regs }
  let b := rcBoundsOf rcSeg t
  (t, { pub with range_check_min := b.1, range_check_max := b.2 })

/-- Observed minimum and maximum of the raw values of a memory range. -/
def rcScanBounds (mem : Memory) (sr : SegmentRange) : Option Nat × Option Nat :=
  match (List.range (sr.stop - sr.start)).map (fun j => mem.getD (sr.start + j)) with
  | [] => (none, none)
  | v :: vs => (some (vs.foldl Nat.min v), some (vs.foldl Nat.max v))

/-- Modelled from the spec: `PublicInputs::from_regs_and_mem` — derives the
public claim from the register states, the memory, the program size and the
segment map (spec section 4.2): the public memory is the sub-mapping of
memory over `[0, program_size)`, the range-check bounds are the observed
minimum and maximum over the range-check segment (later refined by the trace
builder), and the outputs are the memory contents of the output segment. -/
def PublicInputs.from_regs_and_mem (regs : List RegisterState) (mem : Memory)
    (program_size : Nat) (segs : MemorySegmentMap) : PublicInputs :=
  let rcB := match segs.lookup MemorySegment.RangeCheck with
             | some sr => rcScanBounds mem sr
             | none => (none, none)
  { public_memory := mem.data.filter (fun p => decide (p.1 < program_size)),
    program_size := program_size,
    trace_length := regs.length,
    memory_segments := segs,
    range_check_min := rcB.1,
    range_check_max := rcB.2,
    output_values :=
      match segs.lookup MemorySegment.Output with
      | some sr => (List.range (sr.stop - sr.start)).map (fun j => mem.getD (sr.start + j))
      | none => [] }

/-- The hash families offered by the external Merkle backend crate; the
snapshot's configuration selects Keccak-256, whose digests have 256-bit
collision security. -/
inductive HashFamily where
  | keccak256
  | sha3_256
deriving DecidableEq

/-- Security level, in bits, of a hash family's digests. -/
def HashFamily.securityBits : HashFamily → Nat
  | keccak256 => 256
  | sha3_256 => 256

/-- A Merkle tree backend is characterised, at this layer, by the hash
family it is instantiated with (`src/starks/config.rs`). -/
structure MerkleTreeBackend where
  hashFamily : HashFamily
deriving DecidableEq

/-- The FRI Merkle tree backend of `src/starks/config.rs`: `Keccak256Tree`. -/
def FriMerkleTreeBackend : MerkleTreeBackend :=
  { hashFamily := HashFamily.keccak256 }

/-- The batched Merkle tree backend of `src/starks/config.rs`:
`BatchKeccak256Tree`. -/
def BatchedMerkleTreeBackend : MerkleTreeBackend :=
  { hashFamily := HashFamily.keccak256 }

/-- The commitment size of `src/starks/config.rs`. -/
def COMMITMENT_SIZE : Nat := 32

/-- A commitment is a byte array of exactly `COMMITMENT_SIZE` bytes
(`src/starks/config.rs`: `[u8; COMMITMENT_SIZE]`). -/
def Commitment : Type := { l : List (Fin 256) // l.length = COMMITMENT_SIZE }

/-- Honesty condition on the memory feeding the range-check builtin: every
value of the range-check segment lies below `rcBound`. -/
def rcValuesSmallB (mem : Memory) (segs : MemorySegmentMap) : Bool :=
  match segs.lookup MemorySegment.RangeCheck with
  | none => true
  | some sr => (List.range (sr.stop - sr.start)).all
      (fun j => decide (mem.getD (sr.start + j) < rcBound))

/-- Honesty condition on the execution: every output-segment cell is written
by some execution step. -/
def outputsCoveredB (regs : List RegisterState) (segs : MemorySegmentMap) : Bool :=
  match segs.lookup MemorySegment.Output with
  | none => true
  | some sr => (List.range (sr.stop - sr.start)).all
      (fun j => regs.any (fun st => decide (st.ap = sr.start + j)))

/- A small concrete honest execution, used to witness the theorems below.
The program listing occupies addresses 0 and 1, the range-check segment is
the single cell at address 4 and the output segment the single cell at
address 5; the two execution steps visit both program addresses and write
the output cell. -/

def mem0 : Memory :=
  { data := [(0, 7), (1, 8), (2, 3), (3, 5), (4, 2), (5, 9)] }

def regs0 : List RegisterState :=
  [{ pc := 0, ap := 4, fp := 5 }, { pc := 1, ap := 5, fp := 4 }]

def segs0 : MemorySegmentMap :=
  [(MemorySegment.RangeCheck, { start := 4, stop := 5 }),
   (MemorySegment.Output, { start := 5, stop := 6 })]

def pubDerived0 : PublicInputs :=
  PublicInputs.from_regs_and_mem regs0 mem0 2 segs0

def trace0 : TraceTable :=
  (build_main_trace regs0 mem0 pubDerived0).1

def pub0 : PublicInputs :=
  (build_main_trace regs0 mem0 pubDerived0).2

def opts0 : ProofOptions :=
  ProofOptions.default_test_options

def proof0 : StarkProof :=
  { trace := trace0, options := opts0 }

/- The same execution with an overflowing value (2 ^ 128 + 1, the test
suite's 0x100000000000000000000000000000001) planted in the range-check
segment. -/

def memOv : Memory :=
  { data := [(0, 7), (1, 8), (2, 3), (3, 5), (4, 2 ^ 128 + 1), (5, 9)] }

def pubOvDerived : PublicInputs :=
  PublicInputs.from_regs_and_mem regs0 memOv 2 segs0

def traceOv : TraceTable :=
  (build_main_trace regs0 memOv pubOvDerived).1

def pubOv : PublicInputs :=
  (build_main_trace regs0 memOv pubOvDerived).2

/- The honest trace with its first range-check value cell overwritten by 35
(the test suite's malicious value), and with the output-feeding destination
cell of its second row overwritten by 100. -/

def traceTamperedRc : TraceTable :=
  { rows := trace0.rows.set 0 { trace0.rows.getD 0 default with rc_value := 35 } }

def traceTamperedOut : TraceTable :=
  { rows := trace0.rows.set 1 { trace0.rows.getD 1 default with dst := 100 } }

/- Boolean and list plumbing. -/

theorem and_eq_false_of_left {a b : Bool} (h : a = false) : (a && b) = false := by
  simp [h]

theorem and_eq_false_of_right {a b : Bool} (h : b = false) : (a && b) = false := by
  simp [h]

theorem all_eq_false_of_mem {α : Type} {p : α → Bool} {l : List α} {x : α}
    (hx : x ∈ l) (hpx : p x = false) : l.all p = false := by
  cases hall : l.all p with
  | false => rfl
  | true => exact absurd (List.all_eq_true.mp hall x hx) (by simp [hpx])

/- Limb decomposition lemmas. -/

theorem limbDecomposeAux_length (k v : Nat) : (limbDecomposeAux k v).length = k := by
  induction k generalizing v with
  | zero => rfl
  | succ k ih => simp [limbDecomposeAux, ih]

theorem limbDecomposeAux_lt (k v : Nat) : ∀ l ∈ limbDecomposeAux k v, l < limbWeight := by
  induction k generalizing v with
  | zero => intro l hl; simp [limbDecomposeAux] at hl
  | succ k ih =>
      intro l hl
      simp only [limbDecomposeAux, List.mem_cons] at hl
      rcases hl with h | h
      · exact h ▸ Nat.mod_lt _ (by decide)
      · exact ih _ l h

theorem weightedLimbSum_cons (l : Nat) (ls : List Nat) :
    weightedLimbSum (l :: ls) = l + limbWeight * weightedLimbSum ls := rfl

theorem weightedLimbSum_limbDecomposeAux (k v : Nat) :
    weightedLimbSum (limbDecomposeAux k v) = v % limbWeight ^ k := by
  induction k generalizing v with
  | zero => simp [limbDecomposeAux, weightedLimbSum, Nat.mod_one]
  | succ k ih =>
      show weightedLimbSum (v % limbWeight :: limbDecomposeAux k (v / limbWeight)) = _
      rw [weightedLimbSum_cons, ih, pow_succ', Nat.mod_mul]

theorem weightedLimbSum_limbDecompose (v : Nat) :
    weightedLimbSum (limbDecompose v) = v % rcBound := by
  have h : limbWeight ^ RC_LIMB_COUNT = rcBound := by decide
  rw [limbDecompose, weightedLimbSum_limbDecomposeAux, h]

/- Fold bounds. -/

theorem foldl_min_le (ls : List Nat) (a : Nat) : ls.foldl Nat.min a ≤ a := by
  induction ls generalizing a with
  | nil => simp
  | cons x xs ih =>
      simp only [List.foldl_cons]
      exact le_trans (ih (Nat.min a x)) (Nat.min_le_left a x)

theorem foldl_max_lt (ls : List Nat) (a B : Nat) (ha : a < B)
    (h : ∀ x ∈ ls, x < B) : ls.foldl Nat.max a < B := by
  induction ls generalizing a with
  | nil => simpa using ha
  | cons x xs ih =>
      simp only [List.foldl_cons]
      exact ih (Nat.max a x)
        (Nat.max_lt.mpr ⟨ha, h x (List.mem_cons_self x xs)⟩)
        (fun y hy => h y (List.mem_cons_of_mem x hy))

/- Lookup lemmas. -/

theorem pmLookup_eq_some_mem {pm : List (Nat × Nat)} {a v : Nat}
    (h : pmLookup pm a = some v) : (a, v) ∈ pm := by
  unfold pmLookup at h
  cases hf : pm.find? (fun p => decide (p.1 = a)) with
  | none => rw [hf] at h; simp at h
  | some e =>
      rw [hf] at h
      simp at h
      have he : e ∈ pm := List.mem_of_find?_eq_some hf
      have h1 : e.1 = a := by simpa using List.find?_some hf
      have h2 : e.2 = v := h
      have : (a, v) = e := by
        cases e
        simp_all
      exact this ▸ he

theorem Memory.lookup_eq_of_mem {m : Memory} {a v : Nat}
    (honce : ∀ p ∈ m.data, ∀ q ∈ m.data, p.1 = q.1 → p.2 = q.2)
    (hmem : (a, v) ∈ m.data) : m.lookup a = some v := by
  unfold Memory.lookup
  cases hf : m.data.find? (fun p => decide (p.1 = a)) with
  | none =>
      exfalso
      have := List.find?_eq_none.mp hf (a, v) hmem
      simp at this
  | some e =>
      have he : e ∈ m.data := List.mem_of_find?_eq_some hf
      have h1 : e.1 = a := by simpa using List.find?_some hf
      have h2 : e.2 = v := honce e he (a, v) hmem (by simpa using h1)
      simp [h2]

theorem Memory.getD_eq_of_mem {m : Memory} {a v : Nat}
    (honce : ∀ p ∈ m.data, ∀ q ∈ m.data, p.1 = q.1 → p.2 = q.2)
    (hmem : (a, v) ∈ m.data) : m.getD a = v := by
  unfold Memory.getD
  rw [Memory.lookup_eq_of_mem honce hmem]
  rfl

theorem Memory.getD_lt {m : Memory} {B : Nat} (hB : 0 < B)
    (h : ∀ p ∈ m.data, p.2 < B) (a : Nat) : m.getD a < B := by
  unfold Memory.getD Memory.lookup
  cases hf : m.data.find? (fun p => decide (p.1 = a)) with
  | none => simpa using hB
  | some e =>
      have he : e ∈ m.data := List.mem_of_find?_eq_some hf
      simpa using h e he

theorem pmLookup_filter (m : Memory) (n a : Nat) (ha : a < n) :
    pmLookup (m.data.filter (fun p => decide (p.1 < n))) a = m.lookup a := by
  unfold pmLookup Memory.lookup
  suffices hkey : ∀ l : List (Nat × Nat),
      (l.filter (fun p => decide (p.1 < n))).find? (fun p => decide (p.1 = a)) =
        l.find? (fun p => decide (p.1 = a)) by
    rw [hkey m.data]
  intro l
  induction l with
  | nil => rfl
  | cons p l ih =>
      by_cases hp : p.1 < n
      · rw [List.filter_cons_of_pos (by simpa using hp)]
        by_cases hq : p.1 = a
        · rw [List.find?_cons_of_pos _ (by simpa using hq),
            List.find?_cons_of_pos _ (by simpa using hq)]
        · rw [List.find?_cons_of_neg _ (by simpa using hq),
            List.find?_cons_of_neg _ (by simpa using hq), ih]
      · rw [List.filter_cons_of_neg (by simpa using hp)]
        have hq : ¬ p.1 = a := fun he => hp (he ▸ ha)
        rw [List.find?_cons_of_neg _ (by simpa using hq), ih]

/- Builder lemmas. -/

theorem buildRowsFrom_cons (mem : Memory) (rcSeg : Option SegmentRange)
    (i : Nat) (st : RegisterState) (sts : List RegisterState) :
    buildRowsFrom mem rcSeg i (st :: sts) =
      buildRow mem rcSeg i st :: buildRowsFrom mem rcSeg (i + 1) sts := rfl

theorem buildRowsFrom_length (mem : Memory) (rcSeg : Option SegmentRange)
    (sts : List RegisterState) (i : Nat) :
    (buildRowsFrom mem rcSeg i sts).length = sts.length := by
  induction sts generalizing i with
  | nil => rfl
  | cons st sts ih => simp [buildRowsFrom_cons, ih]

theorem mem_buildRowsFrom {mem : Memory} {rcSeg : Option SegmentRange}
    {sts : List RegisterState} {i : Nat} {row : Row}
    (h : row ∈ buildRowsFrom mem rcSeg i sts) :
    ∃ j st, st ∈ sts ∧ row = buildRow mem rcSeg j st := by
  induction sts generalizing i with
  | nil => cases h
  | cons s ss ih =>
      rw [buildRowsFrom_cons] at h
      rcases List.mem_cons.mp h with h1 | h1
      · exact ⟨i, s, List.mem_cons_self s ss, h1⟩
      · rcases ih h1 with ⟨j, st, hst, hrow⟩
        exact ⟨j, st, List.mem_cons_of_mem s hst, hrow⟩

theorem buildRowsFrom_getD (mem : Memory) (rcSeg : Option SegmentRange)
    (sts : List RegisterState) (i j : Nat) (h : j < sts.length) :
    (buildRowsFrom mem rcSeg i sts).getD j default =
      buildRow mem rcSeg (i + j) (sts.getD j ⟨0, 0, 0⟩) := by
  induction sts generalizing i j with
  | nil => simp at h
  | cons st sts ih =>
      cases j with
      | zero => simp [buildRowsFrom_cons]
      | succ j =>
          have hj : j < sts.length := by simpa using h
          rw [buildRowsFrom_cons]
          show (buildRowsFrom mem rcSeg (i + 1) sts).getD j default = _
          rw [ih (i + 1) j hj]
          have : i + 1 + j = i + (j + 1) := by omega
          rw [this]
          rfl

/- Access lemmas. -/

theorem accessesOf_cons (r : Row) (rows : List Row) :
    accessesOf (r :: rows) = rowAccesses r ++ accessesOf rows := by
  simp [accessesOf]

theorem mem_accessesOf {rows : List Row} {p : Nat × Nat} :
    p ∈ accessesOf rows ↔ ∃ r ∈ rows, p ∈ rowAccesses r := by
  unfold accessesOf
  rw [List.mem_flatten]
  constructor
  · rintro ⟨l, hl, hp⟩
    rcases List.mem_map.mp hl with ⟨r, hr, rfl⟩
    exact ⟨r, hr, hp⟩
  · rintro ⟨r, hr, hp⟩
    exact ⟨rowAccesses r, List.mem_map_of_mem _ hr, hp⟩

theorem access_spec {mem : Memory} {rcSeg : Option SegmentRange}
    {sts : List RegisterState} {i : Nat} {p : Nat × Nat}
    (h : p ∈ accessesOf (buildRowsFrom mem rcSeg i sts)) :
    (∃ st ∈ sts, p.1 = st.pc ∨ p.1 = st.ap ∨ p.1 = st.fp) ∧ p.2 = mem.getD p.1 := by
  rcases mem_accessesOf.mp h with ⟨row, hrow, hp⟩
  rcases mem_buildRowsFrom hrow with ⟨j, st, hst, rfl⟩
  simp only [rowAccesses, buildRow, List.mem_cons, List.not_mem_nil, or_false] at hp
  rcases hp with rfl | rfl | rfl | rfl
  · exact ⟨⟨st, hst, Or.inl rfl⟩, rfl⟩
  · exact ⟨⟨st, hst, Or.inr (Or.inl rfl)⟩, rfl⟩
  · exact ⟨⟨st, hst, Or.inr (Or.inr rfl)⟩, rfl⟩
  · exact ⟨⟨st, hst, Or.inl rfl⟩, rfl⟩

theorem pc_access (mem : Memory) (rcSeg : Option SegmentRange)
    {sts : List RegisterState} {st : RegisterState} (h : st ∈ sts) (i : Nat) :
    (st.pc, mem.getD st.pc) ∈ accessesOf (buildRowsFrom mem rcSeg i sts) := by
  induction sts generalizing i with
  | nil => cases h
  | cons s ss ih =>
      rw [buildRowsFrom_cons, accessesOf_cons]
      rcases List.mem_cons.mp h with rfl | h1
      · exact List.mem_append_left _ (by simp [rowAccesses, buildRow])
      · exact List.mem_append_right _ (ih h1 (i + 1))

theorem ap_access (mem : Memory) (rcSeg : Option SegmentRange)
    {sts : List RegisterState} {st : RegisterState} (h : st ∈ sts) (i : Nat) :
    (st.ap, mem.getD st.ap) ∈ accessesOf (buildRowsFrom mem rcSeg i sts) := by
  induction sts generalizing i with
  | nil => cases h
  | cons s ss ih =>
      rw [buildRowsFrom_cons, accessesOf_cons]
      rcases List.mem_cons.mp h with rfl | h1
      · exact List.mem_append_left _ (by simp [rowAccesses, buildRow])
      · exact List.mem_append_right _ (ih h1 (i + 1))

theorem rcValueAt_lt {mem : Memory} {B : Nat} (hB : 0 < B)
    (hmem : ∀ p ∈ mem.data, p.2 < B) (rcSeg : Option SegmentRange) (i : Nat) :
    rcValueAt mem rcSeg i < B := by
  unfold rcValueAt
  cases rcSeg with
  | none => exact hB
  | some sr =>
      show (if sr.start + i < sr.stop then mem.getD (sr.start + i)
            else if sr.start < sr.stop then mem.getD (sr.stop - 1) else 0) < B
      split_ifs with h1 h2
      · exact Memory.getD_lt hB hmem _
      · exact Memory.getD_lt hB hmem _
      · exact hB

theorem rcValueAt_lt_rcBound {mem : Memory} {sr : SegmentRange}
    (h : ∀ j, j < sr.stop - sr.start → mem.getD (sr.start + j) < rcBound) (i : Nat) :
    rcValueAt mem (some sr) i < rcBound := by
  unfold rcValueAt
  show (if sr.start + i < sr.stop then mem.getD (sr.start + i)
        else if sr.start < sr.stop then mem.getD (sr.stop - 1) else 0) < rcBound
  split_ifs with h1 h2
  · exact h i (by omega)
  · have hj := h (sr.stop - 1 - sr.start) (by omega)
    have he : sr.start + (sr.stop - 1 - sr.start) = sr.stop - 1 := by omega
    rw [he] at hj
    exact hj
  · decide

theorem mem_traceLimbs_built {mem : Memory} {rcSeg : Option SegmentRange}
    {sts : List RegisterState} {i l : Nat}
    (h : l ∈ traceLimbs { rows := buildRowsFrom mem rcSeg i sts }) : l < limbWeight := by
  unfold traceLimbs at h
  rcases List.mem_flatten.mp h with ⟨limbs, hl, hmem⟩
  rcases List.mem_map.mp hl with ⟨row, hrow, rfl⟩
  rcases mem_buildRowsFrom hrow with ⟨j, st, _, rfl⟩
  exact limbDecomposeAux_lt _ _ l hmem

/- Elimination and introduction lemmas for the checks. -/

theorem generate_ok_elim {t : TraceTable} {pub : PublicInputs} {opts : ProofOptions}
    {p : StarkProof} (h : generate_cairo_proof t pub opts = Except.ok p) :
    p = { trace := t, options := opts } ∧ traceWellFormed pub t = true := by
  unfold generate_cairo_proof at h
  split at h
  · injection h with h2
    exact ⟨h2.symm, by assumption⟩
  · exact Except.noConfusion h

theorem generate_ok_intro {t : TraceTable} {pub : PublicInputs} (opts : ProofOptions)
    (h : traceWellFormed pub t = true) :
    generate_cairo_proof t pub opts = Except.ok { trace := t, options := opts } := by
  unfold generate_cairo_proof
  simp [h]

theorem verify_elim {p : StarkProof} {pub : PublicInputs} {opts : ProofOptions}
    (h : verify_cairo_proof p pub opts = true) :
    p.options = opts ∧ airCheck pub p.trace = true := by
  simp only [verify_cairo_proof, Bool.and_eq_true, decide_eq_true_eq] at h
  exact h

theorem verify_false_of_air {p : StarkProof} {pub : PublicInputs} {opts : ProofOptions}
    (h : airCheck pub p.trace = false) : verify_cairo_proof p pub opts = false :=
  and_eq_false_of_right h

theorem airCheck_elim {pub : PublicInputs} {t : TraceTable}
    (h : airCheck pub t = true) :
    traceWellFormed pub t = true ∧ memoryCheck t = true ∧ pmCheck pub t = true ∧
      t.rows.all rowRcCheck = true ∧ rcBoundsCheck pub t = true ∧
      outputCheck pub t = true := by
  simp only [airCheck, Bool.and_eq_true] at h
  tauto

theorem airCheck_intro {pub : PublicInputs} {t : TraceTable}
    (h1 : traceWellFormed pub t = true) (h2 : memoryCheck t = true)
    (h3 : pmCheck pub t = true) (h4 : t.rows.all rowRcCheck = true)
    (h5 : rcBoundsCheck pub t = true) (h6 : outputCheck pub t = true) :
    airCheck pub t = true := by
  simp only [airCheck, Bool.and_eq_true]
  tauto

theorem airCheck_false_of_pm {pub : PublicInputs} {t : TraceTable}
    (h : pmCheck pub t = false) : airCheck pub t = false :=
  and_eq_false_of_left (and_eq_false_of_left (and_eq_false_of_left
    (and_eq_false_of_right h)))

theorem airCheck_false_of_rcRows {pub : PublicInputs} {t : TraceTable}
    (h : t.rows.all rowRcCheck = false) : airCheck pub t = false :=
  and_eq_false_of_left (and_eq_false_of_left (and_eq_false_of_right h))

theorem airCheck_false_of_rcBounds {pub : PublicInputs} {t : TraceTable}
    (h : rcBoundsCheck pub t = false) : airCheck pub t = false :=
  and_eq_false_of_left (and_eq_false_of_right h)

theorem airCheck_false_of_output {pub : PublicInputs} {t : TraceTable}
    (h : outputCheck pub t = false) : airCheck pub t = false :=
  and_eq_false_of_right h

theorem airCheck_false_of_wf {pub : PublicInputs} {t : TraceTable}
    (h : traceWellFormed pub t = false) : airCheck pub t = false :=
  and_eq_false_of_left (and_eq_false_of_left (and_eq_false_of_left
    (and_eq_false_of_left (and_eq_false_of_left h))))

theorem rowRcCheck_elim {r : Row} (h : rowRcCheck r = true) :
    r.rc_limbs.length = RC_LIMB_COUNT ∧ (∀ l ∈ r.rc_limbs, l < limbWeight) ∧
      weightedLimbSum r.rc_limbs % prime = r.rc_value := by
  simp only [rowRcCheck, Bool.and_eq_true, List.all_eq_true, decide_eq_true_eq] at h
  tauto

theorem pmCheck_elim {pub : PublicInputs} {t : TraceTable}
    (h : pmCheck pub t = true) :
    (∀ p ∈ pub.public_memory, p ∈ t.accesses) ∧
      (∀ p ∈ t.accesses, pub.program_size ≤ p.1 ∨
        pmLookup pub.public_memory p.1 = some p.2) := by
  simp only [pmCheck, Bool.and_eq_true, List.all_eq_true, decide_eq_true_eq,
    Bool.or_eq_true] at h
  exact h

theorem rcValuesSmall_elim {mem : Memory} {segs : MemorySegmentMap}
    (h : rcValuesSmallB mem segs = true) (j : Nat) :
    rcValueAt mem (segs.lookup MemorySegment.RangeCheck) j < rcBound := by
  unfold rcValuesSmallB at h
  cases hseg : segs.lookup MemorySegment.RangeCheck with
  | none =>
      show (0 : Nat) < rcBound
      decide
  | some sr =>
      rw [hseg] at h
      have h1 : (List.range (sr.stop - sr.start)).all
          (fun j => decide (mem.getD (sr.start + j) < rcBound)) = true := h
      have h2 : ∀ k, k < sr.stop - sr.start → mem.getD (sr.start + k) < rcBound := by
        intro k hk
        exact of_decide_eq_true (List.all_eq_true.mp h1 k (List.mem_range.mpr hk))
      exact rcValueAt_lt_rcBound h2 j

theorem outputsCovered_elim {regs : List RegisterState} {segs : MemorySegmentMap}
    (h : outputsCoveredB regs segs = true) {sr : SegmentRange}
    (hseg : segs.lookup MemorySegment.Output = some sr) :
    ∀ j, j < sr.stop - sr.start → ∃ st ∈ regs, st.ap = sr.start + j := by
  unfold outputsCoveredB at h
  rw [hseg] at h
  have h1 : (List.range (sr.stop - sr.start)).all
      (fun j => regs.any (fun st => decide (st.ap = sr.start + j))) = true := h
  intro j hj
  have h2 := List.all_eq_true.mp h1 j (List.mem_range.mpr hj)
  rcases List.any_eq_true.mp h2 with ⟨st, hst, hdec⟩
  exact ⟨st, hst, of_decide_eq_true hdec⟩

theorem map_range_getD (n : Nat) (f : Nat → Nat) (j : Nat) (h : j < n) :
    ((List.range n).map f).getD j 0 = f j := by
  have hlen : j < ((List.range n).map f).length := by simpa using h
  rw [List.getD_eq_getElem _ _ hlen]
  simp

/- The six AIR components hold on an honestly built trace. -/

theorem built_traceWellFormed (pub : PublicInputs) (regs : List RegisterState)
    (mem : Memory) (rcSeg : Option SegmentRange)
    (hlen : pub.trace_length = regs.length)
    (hne : regs ≠ [])
    (hregs : ∀ st ∈ regs, st.pc < prime ∧ st.ap < prime ∧ st.fp < prime)
    (hmemv : ∀ p ∈ mem.data, p.2 < prime) :
    traceWellFormed pub { rows := buildRowsFrom mem rcSeg 0 regs } = true := by
  unfold traceWellFormed
  simp only [Bool.and_eq_true, decide_eq_true_eq]
  refine ⟨⟨?_, ?_⟩, ?_⟩
  · show (buildRowsFrom mem rcSeg 0 regs).length = pub.trace_length
    rw [hlen]
    exact buildRowsFrom_length mem rcSeg regs 0
  · show buildRowsFrom mem rcSeg 0 regs ≠ []
    intro hnil
    have h0 : regs.length = 0 := by
      rw [← buildRowsFrom_length mem rcSeg regs 0, hnil]
      rfl
    exact hne (List.length_eq_zero.mp h0)
  · show (buildRowsFrom mem rcSeg 0 regs).all Row.wellFormedB = true
    rw [List.all_eq_true]
    intro row hrow
    rcases mem_buildRowsFrom hrow with ⟨j, st, hst, rfl⟩
    obtain ⟨h1, h2, h3⟩ := hregs st hst
    have hgd : ∀ a, mem.getD a < prime := fun a => Memory.getD_lt (by decide) hmemv a
    simp only [Row.wellFormedB, buildRow, Bool.and_eq_true, decide_eq_true_eq,
      List.all_eq_true]
    refine ⟨⟨⟨⟨⟨⟨⟨⟨⟨h1, hgd _⟩, h2⟩, hgd _⟩, h3⟩, hgd _⟩, h1⟩, hgd _⟩, ?_⟩, ?_⟩
    · intro l hl
      exact lt_trans (limbDecomposeAux_lt _ _ l hl) (by decide)
    · exact rcValueAt_lt (by decide) hmemv rcSeg j

theorem built_memoryCheck (regs : List RegisterState) (mem : Memory)
    (rcSeg : Option SegmentRange) (i : Nat) :
    memoryCheck { rows := buildRowsFrom mem rcSeg i regs } = true := by
  unfold memoryCheck
  rw [List.all_eq_true]
  intro p hp
  rw [List.all_eq_true]
  intro q hq
  rw [decide_eq_true_eq]
  intro h1
  have hp2 := (access_spec (show p ∈ accessesOf (buildRowsFrom mem rcSeg i regs) from hp)).2
  have hq2 := (access_spec (show q ∈ accessesOf (buildRowsFrom mem rcSeg i regs) from hq)).2
  rw [hp2, hq2, h1]

theorem built_pmCheck (pub : PublicInputs) (regs : List RegisterState)
    (mem : Memory) (rcSeg : Option SegmentRange)
    (hpm : pub.public_memory = mem.data.filter (fun p => decide (p.1 < pub.program_size)))
    (honce : ∀ p ∈ mem.data, ∀ q ∈ mem.data, p.1 = q.1 → p.2 = q.2)
    (hcov : ∀ a, a < pub.program_size → ∃ st ∈ regs, st.pc = a)
    (hdef : ∀ st ∈ regs, (mem.lookup st.pc).isSome = true ∧
      (mem.lookup st.ap).isSome = true ∧ (mem.lookup st.fp).isSome = true) :
    pmCheck pub { rows := buildRowsFrom mem rcSeg 0 regs } = true := by
  unfold pmCheck
  simp only [Bool.and_eq_true, List.all_eq_true, decide_eq_true_eq, Bool.or_eq_true]
  constructor
  · intro p hp
    rw [hpm] at hp
    obtain ⟨hmem1, hlt⟩ := List.mem_filter.mp hp
    have hlt1 : p.1 < pub.program_size := of_decide_eq_true hlt
    obtain ⟨st, hst, hpc⟩ := hcov p.1 hlt1
    have hval : mem.getD p.1 = p.2 :=
      Memory.getD_eq_of_mem honce (show (p.1, p.2) ∈ mem.data from hmem1)
    show p ∈ accessesOf (buildRowsFrom mem rcSeg 0 regs)
    have hacc := pc_access mem rcSeg hst 0
    rw [hpc, hval] at hacc
    exact hacc
  · intro p hp
    obtain ⟨⟨st, hst, hcase⟩, hval⟩ :=
      access_spec (show p ∈ accessesOf (buildRowsFrom mem rcSeg 0 regs) from hp)
    by_cases hlt : p.1 < pub.program_size
    · right
      rw [hpm, pmLookup_filter mem _ _ hlt]
      have hsome : (mem.lookup p.1).isSome = true := by
        rcases hcase with h | h | h
        · rw [h]; exact (hdef st hst).1
        · rw [h]; exact (hdef st hst).2.1
        · rw [h]; exact (hdef st hst).2.2
      obtain ⟨v, hv⟩ := Option.isSome_iff_exists.mp hsome
      have hv2 : p.2 = v := by
        rw [hval]
        unfold Memory.getD
        rw [hv]
        rfl
      rw [hv, hv2]
    · left
      omega

theorem built_rcRows (regs : List RegisterState) (mem : Memory)
    (rcSeg : Option SegmentRange) (i : Nat)
    (hsmall : ∀ j, rcValueAt mem rcSeg j < rcBound) :
    (buildRowsFrom mem rcSeg i regs).all rowRcCheck = true := by
  rw [List.all_eq_true]
  intro row hrow
  rcases mem_buildRowsFrom hrow with ⟨j, st, hst, rfl⟩
  simp only [rowRcCheck, buildRow, Bool.and_eq_true, decide_eq_true_eq, List.all_eq_true]
  refine ⟨⟨?_, ?_⟩, ?_⟩
  · exact limbDecomposeAux_length _ _
  · intro l hl
    exact limbDecomposeAux_lt _ _ l hl
  · rw [weightedLimbSum_limbDecompose, Nat.mod_eq_of_lt (hsmall j)]
    exact Nat.mod_eq_of_lt (lt_trans (hsmall j) (by decide))

theorem rcBoundsCheck_intro (pub : PublicInputs) (t : TraceTable)
    (hmin : pub.range_check_min =
      (rcBoundsOf (pub.memory_segments.lookup MemorySegment.RangeCheck) t).1)
    (hmax : pub.range_check_max =
      (rcBoundsOf (pub.memory_segments.lookup MemorySegment.RangeCheck) t).2) :
    rcBoundsCheck pub t = true := by
  unfold rcBoundsCheck
  rw [hmin, hmax, decide_eq_true_eq]

theorem built_outputCheck (pub : PublicInputs) (regs : List RegisterState)
    (mem : Memory) (rcSeg : Option SegmentRange)
    (hnone : pub.memory_segments.lookup MemorySegment.Output = none →
      pub.output_values = [])
    (hsome : ∀ sr, pub.memory_segments.lookup MemorySegment.Output = some sr →
      pub.output_values =
          (List.range (sr.stop - sr.start)).map (fun j => mem.getD (sr.start + j)) ∧
        ∀ j, j < sr.stop - sr.start → ∃ st ∈ regs, st.ap = sr.start + j) :
    outputCheck pub { rows := buildRowsFrom mem rcSeg 0 regs } = true := by
  unfold outputCheck
  cases hseg : pub.memory_segments.lookup MemorySegment.Output with
  | none =>
      show pub.output_values.isEmpty = true
      rw [hnone hseg]
      rfl
  | some sr =>
      obtain ⟨hov, hcov1⟩ := hsome sr hseg
      show (decide (pub.output_values.length = sr.stop - sr.start) &&
        (List.range pub.output_values.length).all (fun j =>
          decide ((sr.start + j, pub.output_values.getD j 0) ∈
            TraceTable.accesses { rows := buildRowsFrom mem rcSeg 0 regs })) &&
        (TraceTable.accesses { rows := buildRowsFrom mem rcSeg 0 regs }).all (fun p =>
          decide (p.1 < sr.start) || decide (sr.stop ≤ p.1) ||
          decide (pub.output_values.getD (p.1 - sr.start) 0 = p.2))) = true
      simp only [Bool.and_eq_true, List.all_eq_true, decide_eq_true_eq, Bool.or_eq_true]
      refine ⟨⟨?_, ?_⟩, ?_⟩
      · rw [hov]
        simp
      · intro j hj
        have hj1 : j < pub.output_values.length := List.mem_range.mp hj
        have hj2 : j < sr.stop - sr.start := by
          rw [hov] at hj1
          simpa using hj1
        have hvalj : pub.output_values.getD j 0 = mem.getD (sr.start + j) := by
          rw [hov]
          exact map_range_getD _ _ _ hj2
        obtain ⟨st, hst, hap⟩ := hcov1 j hj2
        show (sr.start + j, pub.output_values.getD j 0) ∈
          accessesOf (buildRowsFrom mem rcSeg 0 regs)
        have hacc := ap_access mem rcSeg hst 0
        rw [hap, ← hvalj] at hacc
        exact hacc
      · intro p hp
        obtain ⟨_, hval⟩ :=
          access_spec (show p ∈ accessesOf (buildRowsFrom mem rcSeg 0 regs) from hp)
        by_cases hlo : p.1 < sr.start
        · exact Or.inl (Or.inl hlo)
        by_cases hhi : sr.stop ≤ p.1
        · exact Or.inl (Or.inr hhi)
        right
        have hj2 : p.1 - sr.start < sr.stop - sr.start := by omega
        have heq : sr.start + (p.1 - sr.start) = p.1 := by omega
        rw [hov, map_range_getD _ _ _ hj2, heq]
        exact hval.symm

/-- Claim C1 (completeness): for an honestly produced (trace, public inputs)
pair — obtained by deriving the public inputs from the register states, the
memory and the segment map of an unmodified execution and then building the
main trace from them — proof generation succeeds and verifying the generated
proof against the same public inputs and the same proof options returns true,
for every segment layout and every supported proof options.  The hypotheses
spell out honesty of the execution: the register states are non-empty and
reduced, memory is write-once, reduced and defined at every accessed address,
every program address is visited, range-check values fit below 2 ^ 128, and
every output cell is written by some step. -/
theorem completeness_honest_roundtrip
    (regs : List RegisterState) (mem : Memory) (program_size : Nat)
    (segs : MemorySegmentMap) (opts : ProofOptions)
    (t : TraceTable) (pub : PublicInputs)
    (hbuild : build_main_trace regs mem
      (PublicInputs.from_regs_and_mem regs mem program_size segs) = (t, pub))
    (hne : regs ≠ [])
    (hregs : ∀ st ∈ regs, st.pc < prime ∧ st.ap < prime ∧ st.fp < prime)
    (hmemv : ∀ p ∈ mem.data, p.2 < prime)
    (honce : ∀ p ∈ mem.data, ∀ q ∈ mem.data, p.1 = q.1 → p.2 = q.2)
    (hcov : ∀ a, a < program_size → ∃ st ∈ regs, st.pc = a)
    (hdef : ∀ st ∈ regs, (mem.lookup st.pc).isSome = true ∧
      (mem.lookup st.ap).isSome = true ∧ (mem.lookup st.fp).isSome = true)
    (hrc : rcValuesSmallB mem segs = true)
    (hout : outputsCoveredB regs segs = true) :
    generate_cairo_proof t pub opts = Except.ok { trace := t, options := opts } ∧
      verify_cairo_proof { trace := t, options := opts } pub opts = true := by
  obtain ⟨ht, hpub⟩ : t = (build_main_trace regs mem
      (PublicInputs.from_regs_and_mem regs mem program_size segs)).1 ∧
      pub = (build_main_trace regs mem
        (PublicInputs.from_regs_and_mem regs mem program_size segs)).2 := by
    rw [hbuild]
    exact ⟨rfl, rfl⟩
  subst ht
  subst hpub
  have hwf : traceWellFormed
      (build_main_trace regs mem
        (PublicInputs.from_regs_and_mem regs mem program_size segs)).2
      (build_main_trace regs mem
        (PublicInputs.from_regs_and_mem regs mem program_size segs)).1 = true :=
    built_traceWellFormed _ regs mem (segs.lookup MemorySegment.RangeCheck)
      rfl hne hregs hmemv
  have hmc : memoryCheck
      (build_main_trace regs mem
        (PublicInputs.from_regs_and_mem regs mem program_size segs)).1 = true :=
    built_memoryCheck regs mem (segs.lookup MemorySegment.RangeCheck) 0
  have hpm : pmCheck
      (build_main_trace regs mem
        (PublicInputs.from_regs_and_mem regs mem program_size segs)).2
      (build_main_trace regs mem
        (PublicInputs.from_regs_and_mem regs mem program_size segs)).1 = true :=
    built_pmCheck _ regs mem (segs.lookup MemorySegment.RangeCheck)
      rfl honce hcov hdef
  have hsmall : ∀ j, rcValueAt mem (segs.lookup MemorySegment.RangeCheck) j < rcBound :=
    rcValuesSmall_elim hrc
  have hrcrows : ((build_main_trace regs mem
      (PublicInputs.from_regs_and_mem regs mem program_size segs)).1).rows.all
        rowRcCheck = true :=
    built_rcRows regs mem (segs.lookup MemorySegment.RangeCheck) 0 hsmall
  have hrcb : rcBoundsCheck
      (build_main_trace regs mem
        (PublicInputs.from_regs_and_mem regs mem program_size segs)).2
      (build_main_trace regs mem
        (PublicInputs.from_regs_and_mem regs mem program_size segs)).1 = true :=
    rcBoundsCheck_intro _ _ rfl rfl
  have hov : (build_main_trace regs mem
      (PublicInputs.from_regs_and_mem regs mem program_size segs)).2.output_values =
      match segs.lookup MemorySegment.Output with
      | some sr => (List.range (sr.stop - sr.start)).map (fun j => mem.getD (sr.start + j))
      | none => [] := rfl
  have hoc : outputCheck
      (build_main_trace regs mem
        (PublicInputs.from_regs_and_mem regs mem program_size segs)).2
      (build_main_trace regs mem
        (PublicInputs.from_regs_and_mem regs mem program_size segs)).1 = true := by
    refine built_outputCheck _ regs mem (segs.lookup MemorySegment.RangeCheck) ?_ ?_
    · intro h
      have h1 : segs.lookup MemorySegment.Output = none := h
      rw [hov, h1]
    · intro sr hs
      have h1 : segs.lookup MemorySegment.Output = some sr := hs
      refine ⟨by rw [hov, h1], outputsCovered_elim hout h1⟩
  have hair : airCheck
      (build_main_trace regs mem
        (PublicInputs.from_regs_and_mem regs mem program_size segs)).2
      (build_main_trace regs mem
        (PublicInputs.from_regs_and_mem regs mem program_size segs)).1 = true :=
    airCheck_intro hwf hmc hpm hrcrows hrcb hoc
  exact ⟨generate_ok_intro opts hwf, by simp [verify_cairo_proof, hair]⟩

/-- Witness for claim C1 on the concrete honest execution. -/
theorem completeness_honest_roundtrip_witness :
    build_main_trace regs0 mem0 (PublicInputs.from_regs_and_mem regs0 mem0 2 segs0) =
        (trace0, pub0) ∧
      regs0 ≠ [] ∧
      (∀ st ∈ regs0, st.pc < prime ∧ st.ap < prime ∧ st.fp < prime) ∧
      (∀ p ∈ mem0.data, p.2 < prime) ∧
      (∀ p ∈ mem0.data, ∀ q ∈ mem0.data, p.1 = q.1 → p.2 = q.2) ∧
      (∀ a, a < 2 → ∃ st ∈ regs0, st.pc = a) ∧
      (∀ st ∈ regs0, (mem0.lookup st.pc).isSome = true ∧
        (mem0.lookup st.ap).isSome = true ∧ (mem0.lookup st.fp).isSome = true) ∧
      rcValuesSmallB mem0 segs0 = true ∧
      outputsCoveredB regs0 segs0 = true ∧
      (generate_cairo_proof trace0 pub0 opts0 =
          Except.ok { trace := trace0, options := opts0 } ∧
        verify_cairo_proof { trace := trace0, options := opts0 } pub0 opts0 = true) :=
  ⟨by decide, by decide, by decide, by decide, by decide, by decide, by decide,
    by decide, by decide,
    completeness_honest_roundtrip regs0 mem0 2 segs0 opts0 trace0 pub0 (by decide)
      (by decide) (by decide) (by decide) (by decide) (by decide) (by decide)
      (by decide) (by decide)⟩

/-- Claim C2 (soundness under program tampering): for every proof accepted
with some public inputs, if the public memory is replaced by a listing whose
restriction to the program address range differs at some address — i.e. it
represents a different program — then verification with the mutated public
inputs and the same options returns false. -/
theorem program_tampering_rejected
    (p : StarkProof) (pub : PublicInputs) (opts : ProofOptions)
    (pm2 : List (Nat × Nat)) (a : Nat)
    (hval : verify_cairo_proof p pub opts = true)
    (ha : a < pub.program_size)
    (hdiff : pmLookup pub.public_memory a ≠ pmLookup pm2 a) :
    verify_cairo_proof p { pub with public_memory := pm2 } opts = false := by
  obtain ⟨-, hair⟩ := verify_elim hval
  obtain ⟨-, -, hpm, -, -, -⟩ := airCheck_elim hair
  obtain ⟨hc1, hc2⟩ := pmCheck_elim hpm
  apply verify_false_of_air
  apply airCheck_false_of_pm
  cases hpm2 : pmCheck { pub with public_memory := pm2 } p.trace with
  | false => rfl
  | true =>
      exfalso
      obtain ⟨hc1t, hc2t⟩ := pmCheck_elim hpm2
      have hc1t' : ∀ q ∈ pm2, q ∈ p.trace.accesses := hc1t
      have hc2t' : ∀ q ∈ p.trace.accesses,
          pub.program_size ≤ q.1 ∨ pmLookup pm2 q.1 = some q.2 := hc2t
      cases ho : pmLookup pub.public_memory a with
      | some v =>
          have hacc : (a, v) ∈ p.trace.accesses := hc1 (a, v) (pmLookup_eq_some_mem ho)
          rcases hc2t' (a, v) hacc with h2 | h2
          · omega
          · exact hdiff (by rw [ho, h2])
      | none =>
          cases ho2 : pmLookup pm2 a with
          | none => exact hdiff (by rw [ho, ho2])
          | some v =>
              have hacc : (a, v) ∈ p.trace.accesses :=
                hc1t' (a, v) (pmLookup_eq_some_mem ho2)
              rcases hc2 (a, v) hacc with h2 | h2
              · omega
              · rw [ho] at h2
                exact Option.noConfusion h2

/-- Witness for claim C2: corrupting the program listing of the concrete
honest execution at address 1 (as the test suite does) is rejected. -/
theorem program_tampering_rejected_witness :
    verify_cairo_proof proof0 pub0 opts0 = true ∧ 1 < pub0.program_size ∧
      pmLookup pub0.public_memory 1 ≠ pmLookup [(0, 7), (1, 5)] 1 ∧
      verify_cairo_proof proof0
        { pub0 with public_memory := [(0, 7), (1, 5)] } opts0 = false :=
  ⟨by decide, by decide, by decide,
    program_tampering_rejected proof0 pub0 opts0 [(0, 7), (1, 5)] 1 (by decide)
      (by decide) (by decide)⟩

/-- Claim C3 (soundness under range-check bound tampering): for every
accepted proof whose public inputs carry range-check bounds, shifting
`range_check_min` up by one is rejected, and (whenever the subtraction is
meaningful, i.e. the maximum bound is positive) shifting both bounds down by
one is rejected as well, because the boundary constraints are exact
equalities with the bounds present in the range-check columns. -/
theorem range_bound_tampering_rejected
    (p : StarkProof) (pub : PublicInputs) (opts : ProofOptions) (mn mx : Nat)
    (hval : verify_cairo_proof p pub opts = true)
    (hmn : pub.range_check_min = some mn)
    (hmx : pub.range_check_max = some mx) :
    verify_cairo_proof p { pub with range_check_min := some (mn + 1) } opts = false ∧
      (0 < mx →
        verify_cairo_proof p
          { pub with
              range_check_min := some (mn - 1),
              range_check_max := some (mx - 1) } opts = false) := by
  obtain ⟨-, hair⟩ := verify_elim hval
  obtain ⟨-, -, -, -, hrcb, -⟩ := airCheck_elim hair
  unfold rcBoundsCheck at hrcb
  have hb := of_decide_eq_true hrcb
  constructor
  · apply verify_false_of_air
    apply airCheck_false_of_rcBounds
    unfold rcBoundsCheck
    rw [decide_eq_false_iff_not]
    intro hcontra
    have hcontra2 : (some (mn + 1), pub.range_check_max) =
        rcBoundsOf (pub.memory_segments.lookup MemorySegment.RangeCheck) p.trace :=
      hcontra
    rw [← hb] at hcontra2
    have h1 : some (mn + 1) = pub.range_check_min := congrArg Prod.fst hcontra2
    rw [hmn] at h1
    injection h1 with h2
    omega
  · intro hpos
    apply verify_false_of_air
    apply airCheck_false_of_rcBounds
    unfold rcBoundsCheck
    rw [decide_eq_false_iff_not]
    intro hcontra
    have hcontra2 : (some (mn - 1), some (mx - 1)) =
        rcBoundsOf (pub.memory_segments.lookup MemorySegment.RangeCheck) p.trace :=
      hcontra
    rw [← hb] at hcontra2
    have h1 : some (mx - 1) = pub.range_check_max := congrArg Prod.snd hcontra2
    rw [hmx] at h1
    injection h1 with h2
    omega

/-- Witness for claim C3 on the concrete honest execution, whose refined
bounds are 0 and 2. -/
theorem range_bound_tampering_rejected_witness :
    verify_cairo_proof proof0 pub0 opts0 = true ∧
      pub0.range_check_min = some 0 ∧ pub0.range_check_max = some 2 ∧
      (verify_cairo_proof proof0
          { pub0 with range_check_min := some (0 + 1) } opts0 = false ∧
        (0 < 2 → verify_cairo_proof proof0
          { pub0 with
              range_check_min := some (0 - 1),
              range_check_max := some (2 - 1) } opts0 = false)) :=
  ⟨by decide, by decide, by decide,
    range_bound_tampering_rejected proof0 pub0 opts0 0 2 (by decide) (by decide)
      (by decide)⟩

/-- Claim C7 (parameter binding): a proof generated under one set of proof
options — in particular under one security level — is rejected whenever the
verifier is invoked under structurally different options, even though the
trace and the public inputs are identical. -/
theorem security_params_mismatch_rejected
    (t : TraceTable) (pub : PublicInputs) (optsP optsV : ProofOptions)
    (p : StarkProof)
    (hgen : generate_cairo_proof t pub optsP = Except.ok p)
    (hne : optsP ≠ optsV) :
    verify_cairo_proof p pub optsV = false := by
  obtain ⟨hp, -⟩ := generate_ok_elim hgen
  subst hp
  unfold verify_cairo_proof
  apply and_eq_false_of_left
  rw [decide_eq_false_iff_not]
  exact fun h => hne h

/-- Witness for claim C7: a proof produced under the 80-bit conjecturable
level is rejected under the 128-bit level (the test suite's scenario). -/
theorem security_params_mismatch_rejected_witness :
    generate_cairo_proof trace0 pub0
        (ProofOptions.new_secure SecurityLevel.Conjecturable80Bits 3) =
      Except.ok
        { trace := trace0,
          options := ProofOptions.new_secure SecurityLevel.Conjecturable80Bits 3 } ∧
      ProofOptions.new_secure SecurityLevel.Conjecturable80Bits 3 ≠
        ProofOptions.new_secure SecurityLevel.Conjecturable128Bits 3 ∧
      verify_cairo_proof
        { trace := trace0,
          options := ProofOptions.new_secure SecurityLevel.Conjecturable80Bits 3 }
        pub0 (ProofOptions.new_secure SecurityLevel.Conjecturable128Bits 3) = false :=
  ⟨by decide, by decide,
    security_params_mismatch_rejected trace0 pub0
      (ProofOptions.new_secure SecurityLevel.Conjecturable80Bits 3)
      (ProofOptions.new_secure SecurityLevel.Conjecturable128Bits 3)
      { trace := trace0,
        options := ProofOptions.new_secure SecurityLevel.Conjecturable80Bits 3 }
      (by decide) (by decide)⟩

theorem mem_set_self {α : Type} (l : List α) (i : Nat) (a : α) (h : i < l.length) :
    a ∈ l.set i a := by
  have h2 : i < (l.set i a).length := by simpa using h
  have hget : (l.set i a).get ⟨i, h2⟩ = a := by
    rw [List.get_eq_getElem]
    exact List.getElem_set_self h2
  nth_rewrite 2 [← hget]
  exact List.get_mem _ _ h2

/-- Claim C5 (soundness under trace tampering): starting from a trace whose
proof verifies, editing the range-check value cell of one row — the trace's
last column — to a value that differs from that row's recorded range-checked
value makes the proof generated from the tampered trace rejected, with the
public inputs unchanged, because the constraint that the weighted sum of the
row's limbs equals the range-checked value is violated. -/
theorem rc_trace_tampering_rejected
    (t : TraceTable) (pub : PublicInputs) (opts : ProofOptions)
    (r v : Nat) (p : StarkProof)
    (hval : verify_cairo_proof { trace := t, options := opts } pub opts = true)
    (hr : r < t.rows.length)
    (hne : v ≠ (t.rows.getD r default).rc_value)
    (hgen : generate_cairo_proof
        { rows := t.rows.set r { t.rows.getD r default with rc_value := v } } pub
        opts = Except.ok p) :
    verify_cairo_proof p pub opts = false := by
  obtain ⟨hp, -⟩ := generate_ok_elim hgen
  subst hp
  apply verify_false_of_air
  apply airCheck_false_of_rcRows
  obtain ⟨-, hair⟩ := verify_elim hval
  obtain ⟨-, -, -, hrc, -, -⟩ := airCheck_elim hair
  have hrc2 : t.rows.all rowRcCheck = true := hrc
  have hrow_mem : t.rows.getD r default ∈ t.rows := by
    rw [List.getD_eq_getElem t.rows default hr]
    exact List.getElem_mem hr
  obtain ⟨-, -, hsum⟩ := rowRcCheck_elim (List.all_eq_true.mp hrc2 _ hrow_mem)
  have hsetmem : ({ t.rows.getD r default with rc_value := v } : Row) ∈
      t.rows.set r { t.rows.getD r default with rc_value := v } :=
    mem_set_self t.rows r _ hr
  apply all_eq_false_of_mem hsetmem
  cases hch : rowRcCheck { t.rows.getD r default with rc_value := v } with
  | false => rfl
  | true =>
      exfalso
      obtain ⟨-, -, hsum2⟩ := rowRcCheck_elim hch
      have hsum2b : weightedLimbSum (t.rows.getD r default).rc_limbs % prime = v :=
        hsum2
      have hsumb : weightedLimbSum (t.rows.getD r default).rc_limbs % prime =
          (t.rows.getD r default).rc_value := hsum
      exact hne (by rw [← hsum2b, hsumb])

/-- Witness for claim C5: overwriting the first range-check value of the
concrete honest trace with 35 (the test suite's malicious value) is
rejected. -/
theorem rc_trace_tampering_rejected_witness :
    verify_cairo_proof { trace := trace0, options := opts0 } pub0 opts0 = true ∧
      0 < trace0.rows.length ∧
      (35 : Nat) ≠ (trace0.rows.getD 0 default).rc_value ∧
      generate_cairo_proof
          { rows := trace0.rows.set 0 { trace0.rows.getD 0 default with rc_value := 35 } }
          pub0 opts0 = Except.ok { trace := traceTamperedRc, options := opts0 } ∧
      verify_cairo_proof { trace := traceTamperedRc, options := opts0 } pub0 opts0 =
        false :=
  ⟨by decide, by decide, by decide, by decide,
    rc_trace_tampering_rejected trace0 pub0 opts0 0 35
      { trace := traceTamperedRc, options := opts0 } (by decide) (by decide)
      (by decide) (by decide)⟩

/-- Claim C6 (soundness under output tampering): starting from a trace whose
proof verifies, editing the single destination-value cell of a row whose
destination address lies in the output segment — a cell that feeds a public
output value — to a different value makes the proof generated from the
tampered trace rejected, with every other cell and all public inputs
unchanged. -/
theorem output_tampering_rejected
    (t : TraceTable) (pub : PublicInputs) (opts : ProofOptions)
    (sr : SegmentRange) (r v : Nat) (p : StarkProof)
    (hval : verify_cairo_proof { trace := t, options := opts } pub opts = true)
    (hseg : pub.memory_segments.lookup MemorySegment.Output = some sr)
    (hr : r < t.rows.length)
    (haddr1 : sr.start ≤ (t.rows.getD r default).dst_addr)
    (haddr2 : (t.rows.getD r default).dst_addr < sr.stop)
    (hne : v ≠ (t.rows.getD r default).dst)
    (hgen : generate_cairo_proof
        { rows := t.rows.set r { t.rows.getD r default with dst := v } } pub opts =
      Except.ok p) :
    verify_cairo_proof p pub opts = false := by
  obtain ⟨hp, -⟩ := generate_ok_elim hgen
  subst hp
  apply verify_false_of_air
  apply airCheck_false_of_output
  obtain ⟨-, hair⟩ := verify_elim hval
  obtain ⟨-, -, -, -, -, hoc⟩ := airCheck_elim hair
  have hoc2 : outputCheck pub t = true := hoc
  unfold outputCheck at hoc2
  rw [hseg] at hoc2
  have hoc3 : (decide (pub.output_values.length = sr.stop - sr.start) &&
      (List.range pub.output_values.length).all (fun j =>
        decide ((sr.start + j, pub.output_values.getD j 0) ∈ t.accesses)) &&
      t.accesses.all (fun q =>
        decide (q.1 < sr.start) || decide (sr.stop ≤ q.1) ||
        decide (pub.output_values.getD (q.1 - sr.start) 0 = q.2))) = true := hoc2
  simp only [Bool.and_eq_true, List.all_eq_true, decide_eq_true_eq,
    Bool.or_eq_true] at hoc3
  obtain ⟨-, hc2⟩ := hoc3
  have hrow_mem : t.rows.getD r default ∈ t.rows := by
    rw [List.getD_eq_getElem t.rows default hr]
    exact List.getElem_mem hr
  have holdacc : ((t.rows.getD r default).dst_addr, (t.rows.getD r default).dst) ∈
      t.accesses :=
    mem_accessesOf.mpr ⟨_, hrow_mem, by simp [rowAccesses]⟩
  rcases hc2 _ holdacc with (h | h) | h
  · omega
  · omega
  unfold outputCheck
  rw [hseg]
  apply and_eq_false_of_right
  have hsetmem : ({ t.rows.getD r default with dst := v } : Row) ∈
      t.rows.set r { t.rows.getD r default with dst := v } :=
    mem_set_self t.rows r _ hr
  have hnewacc : ((t.rows.getD r default).dst_addr, v) ∈
      TraceTable.accesses
        { rows := t.rows.set r { t.rows.getD r default with dst := v } } :=
    mem_accessesOf.mpr ⟨_, hsetmem, by simp [rowAccesses]⟩
  apply all_eq_false_of_mem hnewacc
  show (decide ((t.rows.getD r default).dst_addr < sr.start) ||
    decide (sr.stop ≤ (t.rows.getD r default).dst_addr) ||
    decide (pub.output_values.getD ((t.rows.getD r default).dst_addr - sr.start) 0 =
      v)) = false
  rw [decide_eq_false (show ¬ ((t.rows.getD r default).dst_addr < sr.start) by omega),
    decide_eq_false (show ¬ (sr.stop ≤ (t.rows.getD r default).dst_addr) by omega),
    decide_eq_false (show
      ¬ (pub.output_values.getD ((t.rows.getD r default).dst_addr - sr.start) 0 = v)
      from fun hx => hne (by rw [← hx, h]))]
  rfl

/-- Witness for claim C6: overwriting the output-feeding destination cell of
the concrete honest trace's second row with 100 (the test suite's malicious
value) is rejected. -/
theorem output_tampering_rejected_witness :
    verify_cairo_proof { trace := trace0, options := opts0 } pub0 opts0 = true ∧
      pub0.memory_segments.lookup MemorySegment.Output =
        some { start := 5, stop := 6 } ∧
      1 < trace0.rows.length ∧
      (5 : Nat) ≤ (trace0.rows.getD 1 default).dst_addr ∧
      (trace0.rows.getD 1 default).dst_addr < 6 ∧
      (100 : Nat) ≠ (trace0.rows.getD 1 default).dst ∧
      generate_cairo_proof
          { rows := trace0.rows.set 1 { trace0.rows.getD 1 default with dst := 100 } }
          pub0 opts0 = Except.ok { trace := traceTamperedOut, options := opts0 } ∧
      verify_cairo_proof { trace := traceTamperedOut, options := opts0 } pub0 opts0 =
        false :=
  ⟨by decide, by decide, by decide, by decide, by decide, by decide, by decide,
    output_tampering_rejected trace0 pub0 opts0 { start := 5, stop := 6 } 1 100
      { trace := traceTamperedOut, options := opts0 } (by decide) (by decide)
      (by decide) (by decide) (by decide) (by decide) (by decide)⟩

/-- Claim C4 (soundness under overflow): if the memory holds, at some
range-check segment address that lands in a trace row, a value of at least
2 ^ 128, then the proof generated from the trace and public inputs built from
that memory is rejected by the verifier — while the claimed range-check
bounds written back by the builder do stay within 2 ^ 128 — because the
fixed-width limb decomposition cannot represent the value without violating
the limb constraints. -/
theorem overflow_value_rejected
    (regs : List RegisterState) (mem : Memory) (program_size : Nat)
    (segs : MemorySegmentMap) (opts : ProofOptions) (sr : SegmentRange) (a : Nat)
    (t : TraceTable) (pub : PublicInputs) (p : StarkProof)
    (hbuild : build_main_trace regs mem
      (PublicInputs.from_regs_and_mem regs mem program_size segs) = (t, pub))
    (hseg : segs.lookup MemorySegment.RangeCheck = some sr)
    (ha1 : sr.start ≤ a) (ha2 : a < sr.stop)
    (hrow : a - sr.start < regs.length)
    (hbig : rcBound ≤ mem.getD a)
    (hgen : generate_cairo_proof t pub opts = Except.ok p) :
    verify_cairo_proof p pub opts = false ∧
      pub.range_check_min.getD 0 < rcBound ∧
      pub.range_check_max.getD 0 < rcBound := by
  obtain ⟨ht, hpub⟩ : t = (build_main_trace regs mem
      (PublicInputs.from_regs_and_mem regs mem program_size segs)).1 ∧
      pub = (build_main_trace regs mem
        (PublicInputs.from_regs_and_mem regs mem program_size segs)).2 := by
    rw [hbuild]
    exact ⟨rfl, rfl⟩
  subst ht
  subst hpub
  obtain ⟨hp, -⟩ := generate_ok_elim hgen
  subst hp
  have hlenrows : ((build_main_trace regs mem
      (PublicInputs.from_regs_and_mem regs mem program_size segs)).1).rows.length =
      regs.length := by
    show (buildRowsFrom mem (segs.lookup MemorySegment.RangeCheck) 0 regs).length =
      regs.length
    exact buildRowsFrom_length mem _ regs 0
  have hrow2 : a - sr.start < ((build_main_trace regs mem
      (PublicInputs.from_regs_and_mem regs mem program_size segs)).1).rows.length := by
    rw [hlenrows]
    exact hrow
  have hrowval : ((build_main_trace regs mem
      (PublicInputs.from_regs_and_mem regs mem program_size segs)).1).rows.getD
        (a - sr.start) default =
      buildRow mem (segs.lookup MemorySegment.RangeCheck) (0 + (a - sr.start))
        (regs.getD (a - sr.start) { pc := 0, ap := 0, fp := 0 }) := by
    show (buildRowsFrom mem (segs.lookup MemorySegment.RangeCheck) 0 regs).getD
      (a - sr.start) default = _
    exact buildRowsFrom_getD mem _ regs 0 (a - sr.start) hrow
  have hjlt : sr.start + (0 + (a - sr.start)) < sr.stop := by omega
  have hv : rcValueAt mem (some sr) (0 + (a - sr.start)) = mem.getD a := by
    unfold rcValueAt
    show (if sr.start + (0 + (a - sr.start)) < sr.stop then
        mem.getD (sr.start + (0 + (a - sr.start)))
      else if sr.start < sr.stop then mem.getD (sr.stop - 1) else 0) = mem.getD a
    rw [if_pos hjlt, show sr.start + (0 + (a - sr.start)) = a from by omega]
  have hlimbs : ∀ x, x ∈ traceLimbs ((build_main_trace regs mem
      (PublicInputs.from_regs_and_mem regs mem program_size segs)).1) →
      x < limbWeight := fun x hx =>
    mem_traceLimbs_built (show x ∈ traceLimbs
      { rows := buildRowsFrom mem (segs.lookup MemorySegment.RangeCheck) 0 regs }
      from hx)
  refine ⟨?_, ?_, ?_⟩
  · apply verify_false_of_air
    apply airCheck_false_of_rcRows
    have hmemrow : ((build_main_trace regs mem
        (PublicInputs.from_regs_and_mem regs mem program_size segs)).1).rows.getD
          (a - sr.start) default ∈
        ((build_main_trace regs mem
          (PublicInputs.from_regs_and_mem regs mem program_size segs)).1).rows := by
      rw [List.getD_eq_getElem _ default hrow2]
      exact List.getElem_mem hrow2
    apply all_eq_false_of_mem hmemrow
    rw [hrowval, hseg]
    cases hch : rowRcCheck (buildRow mem (some sr) (0 + (a - sr.start))
        (regs.getD (a - sr.start) { pc := 0, ap := 0, fp := 0 })) with
    | false => rfl
    | true =>
        exfalso
        obtain ⟨-, -, hsum⟩ := rowRcCheck_elim hch
        have hsum2 : weightedLimbSum
            (limbDecompose (rcValueAt mem (some sr) (0 + (a - sr.start)))) % prime =
            rcValueAt mem (some sr) (0 + (a - sr.start)) := hsum
        rw [hv, weightedLimbSum_limbDecompose] at hsum2
        have hlt : mem.getD a % rcBound < rcBound :=
          Nat.mod_lt _ (by decide)
        rw [Nat.mod_eq_of_lt (lt_trans hlt (by decide))] at hsum2
        omega
  · have hmin : (build_main_trace regs mem
        (PublicInputs.from_regs_and_mem regs mem program_size segs)).2.range_check_min =
        (rcBoundsOf (segs.lookup MemorySegment.RangeCheck)
          (build_main_trace regs mem
            (PublicInputs.from_regs_and_mem regs mem program_size segs)).1).1 := rfl
    rw [hmin]
    unfold rcBoundsOf
    rw [hseg]
    cases htl : traceLimbs ((build_main_trace regs mem
        (PublicInputs.from_regs_and_mem regs mem program_size segs)).1) with
    | nil =>
        show (none : Option Nat).getD 0 < rcBound
        decide
    | cons l ls =>
        show ls.foldl Nat.min l < rcBound
        have hl : l < limbWeight := hlimbs l (by rw [htl]; exact List.mem_cons_self l ls)
        exact lt_of_le_of_lt (foldl_min_le ls l) (lt_trans hl (by decide))
  · have hmax : (build_main_trace regs mem
        (PublicInputs.from_regs_and_mem regs mem program_size segs)).2.range_check_max =
        (rcBoundsOf (segs.lookup MemorySegment.RangeCheck)
          (build_main_trace regs mem
            (PublicInputs.from_regs_and_mem regs mem program_size segs)).1).2 := rfl
    rw [hmax]
    unfold rcBoundsOf
    rw [hseg]
    cases htl : traceLimbs ((build_main_trace regs mem
        (PublicInputs.from_regs_and_mem regs mem program_size segs)).1) with
    | nil =>
        show (none : Option Nat).getD 0 < rcBound
        decide
    | cons l ls =>
        show ls.foldl Nat.max l < rcBound
        apply foldl_max_lt
        · exact lt_trans (hlimbs l (by rw [htl]; exact List.mem_cons_self l ls))
            (by decide)
        · intro x hx
          exact lt_trans (hlimbs x (by rw [htl]; exact List.mem_cons_of_mem l hx))
            (by decide)

/-- Witness for claim C4: planting 2 ^ 128 + 1 at range-check address 4 of
the concrete execution (the test suite's overflowing value, up to its exact
hexadecimal constant) is rejected while the claimed bounds stay within
2 ^ 128. -/
theorem overflow_value_rejected_witness :
    build_main_trace regs0 memOv (PublicInputs.from_regs_and_mem regs0 memOv 2 segs0) =
        (traceOv, pubOv) ∧
      segs0.lookup MemorySegment.RangeCheck = some { start := 4, stop := 5 } ∧
      (4 : Nat) ≤ 4 ∧ (4 : Nat) < 5 ∧ 4 - 4 < regs0.length ∧
      rcBound ≤ memOv.getD 4 ∧
      generate_cairo_proof traceOv pubOv opts0 =
        Except.ok { trace := traceOv, options := opts0 } ∧
      (verify_cairo_proof { trace := traceOv, options := opts0 } pubOv opts0 = false ∧
        pubOv.range_check_min.getD 0 < rcBound ∧
        pubOv.range_check_max.getD 0 < rcBound) :=
  ⟨by decide, by decide, by decide, by decide, by decide, by decide, by decide,
    overflow_value_rejected regs0 memOv 2 segs0 opts0 { start := 4, stop := 5 } 4
      traceOv pubOv { trace := traceOv, options := opts0 } (by decide) (by decide)
      (by decide) (by decide) (by decide) (by decide) (by decide)⟩

/-- Claim C8 counterexample: a trace that fails its own AIR (the honest
trace with one output-feeding cell overwritten) is nevertheless accepted by
`generate_cairo_proof`, which returns a proof artifact instead of aborting —
exactly the behaviour the repository's own tests rely on. -/
theorem prover_accepts_air_violating_trace :
    airCheck pub0 traceTamperedOut = false ∧
      generate_cairo_proof traceTamperedOut pub0 opts0 =
        Except.ok { trace := traceTamperedOut, options := opts0 } :=
  ⟨by decide, by decide⟩

/-- Claim C8 as amended: when the supplied trace does not satisfy the AIR it
was built against, `generate_cairo_proof` does not abort — it returns a proof
artifact whenever the trace passes parameter validation — but it never
silently produces an unsound proof: any artifact generated from an
AIR-violating trace is rejected by `verify_cairo_proof`. -/
theorem air_violation_never_verifies
    (t : TraceTable) (pub : PublicInputs) (opts : ProofOptions) (p : StarkProof)
    (hair : airCheck pub t = false)
    (hgen : generate_cairo_proof t pub opts = Except.ok p) :
    verify_cairo_proof p pub opts = false := by
  obtain ⟨hp, -⟩ := generate_ok_elim hgen
  subst hp
  exact verify_false_of_air hair

/-- Witness for claim C8 as amended, on the output-tampered trace. -/
theorem air_violation_never_verifies_witness :
    airCheck pub0 traceTamperedOut = false ∧
      generate_cairo_proof traceTamperedOut pub0 opts0 =
        Except.ok { trace := traceTamperedOut, options := opts0 } ∧
      verify_cairo_proof { trace := traceTamperedOut, options := opts0 } pub0 opts0 =
        false :=
  ⟨by decide, by decide,
    air_violation_never_verifies traceTamperedOut pub0 opts0
      { trace := traceTamperedOut, options := opts0 } (by decide) (by decide)⟩

/-- Claim C9 (verification outcome is always a boolean): for every proof
artifact, public inputs and options the verifier's outcome is the boolean
true or false — an invalid proof is the normal outcome false, never a thrown
error; in particular even a structurally degenerate committed trace (one
failing the well-formedness validation) yields false rather than a failure. -/
theorem verify_total_boolean :
    (∀ (p : StarkProof) (pub : PublicInputs) (opts : ProofOptions),
        verify_cairo_proof p pub opts = true ∨ verify_cairo_proof p pub opts = false) ∧
      (∀ (rows : List Row) (pub : PublicInputs) (optsP optsV : ProofOptions),
        traceWellFormed pub { rows := rows } = false →
        verify_cairo_proof { trace := { rows := rows }, options := optsP } pub optsV =
          false) := by
  constructor
  · intro p pub opts
    cases h : verify_cairo_proof p pub opts
    · exact Or.inr rfl
    · exact Or.inl rfl
  · intro rows pub optsP optsV h
    apply verify_false_of_air
    exact airCheck_false_of_wf h

/-- Witness for claim C9: the empty committed trace is rejected with the
boolean false. -/
theorem verify_total_boolean_witness :
    traceWellFormed pub0 { rows := [] } = false ∧
      verify_cairo_proof { trace := { rows := [] }, options := opts0 } pub0 opts0 =
        false :=
  ⟨by decide, verify_total_boolean.2 [] pub0 opts0 opts0 (by decide)⟩

/-- Claim C10: every Merkle commitment of this layer is a byte array of
exactly 32 bytes (`COMMITMENT_SIZE` is 32), and the FRI Merkle tree backend
and the batched Merkle tree backend are instantiated with the same Keccak-256
hash family, so the two commitment schemes have matching hash security. -/
theorem commitment_config_consistent :
    COMMITMENT_SIZE = 32 ∧ (∀ c : Commitment, c.1.length = 32) ∧
      FriMerkleTreeBackend.hashFamily = HashFamily.keccak256 ∧
      BatchedMerkleTreeBackend.hashFamily = HashFamily.keccak256 ∧
      FriMerkleTreeBackend.hashFamily = BatchedMerkleTreeBackend.hashFamily ∧
      FriMerkleTreeBackend.hashFamily.securityBits =
        BatchedMerkleTreeBackend.hashFamily.securityBits :=
  ⟨rfl, fun c => c.2, rfl, rfl, rfl, rfl⟩

end Cairo
